import Mathlib

/-!
Verification of the `jsonprops` JSON-to-`.properties` conversion core
(`src/props.rs`, configuration surface from `src/app_config.rs`).

The Rust code is shallowly embedded: `serde_json::Value` becomes the
inductive `Value` (a JSON number is carried as its rendered decimal text,
which is what every use site of `Number` in the core consumes),
`BTreeMap<PropKey, String>` becomes a strictly key-sorted association
list built by ordered insertion, and the fallible `build` returns
`Except`.
-/

namespace JsonProps

/-- Unicode White_Space test, the semantics of Rust's `char::is_whitespace`
(used by `str::trim_start` and `String::chars` based checks in
`WhiteSpaceNormalised::normalise`). -/
def rustIsWhitespace (c : Char) : Bool :=
  c.toNat = 0x20 || (0x09 ≤ c.toNat && c.toNat ≤ 0x0D) ||
  c.toNat = 0x85 || c.toNat = 0xA0 || c.toNat = 0x1680 ||
  (0x2000 ≤ c.toNat && c.toNat ≤ 0x200A) ||
  c.toNat = 0x2028 || c.toNat = 0x2029 || c.toNat = 0x202F ||
  c.toNat = 0x205F || c.toNat = 0x3000

/-- The `ListHandling` enum of `src/app_config.rs`. -/
inductive ListHandling where
  | singleProp
  | multiProp
deriving DecidableEq

/-- The part of `Config` (`src/app_config.rs`) consumed by the conversion
core: the list-handling policy and the leading-whitespace flag.  The file
paths, debug flag and entry separator only affect I/O glue. -/
structure Config where
  list_handling : ListHandling
  discard_wsp : Bool

/-- A `serde_json::Value` tree.  A `Number` is represented by its rendered
decimal text: the core only ever consumes a number through `to_string`,
so this rendering is the whole of its observable behaviour. -/
inductive Value where
  | null
  | bool (b : Bool)
  | num (n : String)
  | str (s : String)
  | arr (elems : List Value)
  | obj (fields : List (String × Value))

/-- Rust `bool::to_string` (also `Value::to_string` on a `Bool`). -/
def boolToString (b : Bool) : String :=
  if b then "true" else "false"

/-- The character-scanning loop of `PropKey::new` (`src/props.rs`
lines 214-220): a space, colon or equals sign is emitted preceded by a
backslash, every other character passes through unchanged. -/
def escape_loop : List Char → List Char
  | [] => []
  | c :: cs =>
    if c = ' ' || c = ':' || c = '=' then '\\' :: c :: escape_loop cs
    else c :: escape_loop cs

/-- The `PropKey` newtype of `src/props.rs` (module `prop_key`): a wrapper
over the escaped key text.  Its derived equality and ordering are those of
the wrapped string. -/
structure PropKey where
  text : String
deriving DecidableEq

/-- Lexicographic comparison of character lists by code point, the order
Rust's derived `Ord` for `String` induces (byte-wise lexicographic
comparison of UTF-8 agrees with code-point order).  Written as plain
structural recursion so that it evaluates inside the kernel. -/
def charsLt : List Char → List Char → Bool
  | _, [] => false
  | [], _ :: _ => true
  | a :: as, b :: bs =>
    if a.toNat < b.toNat then true
    else if b.toNat < a.toNat then false
    else charsLt as bs

/-- The derived `Ord` of `PropKey`: the order of the wrapped escaped
text. -/
def PropKey.lt (a b : PropKey) : Bool :=
  charsLt a.text.data b.text.data

/-- Embedding of `PropKey::new` (`src/props.rs` lines 201-223): a leading
backslash is prepended when the raw string starts with a number sign, then
every character runs through `escape_loop`. -/
def PropKey.new (s : String) : PropKey :=
  let lead : List Char := if s.data.head? = some '#' then ['\\'] else []
  ⟨String.mk (lead ++ escape_loop s.data)⟩

/-- Test of `WhiteSpaceNormalised::normalise` (`src/props.rs` lines
176-179): does the string start with a whitespace character. -/
def starts_with_wsp (s : String) : Bool :=
  match s.data with
  | [] => false
  | c :: _ => rustIsWhitespace c

/-- Rust `str::trim_start`: drop the maximal leading run of whitespace. -/
def trim_start (s : String) : String :=
  String.mk (s.data.dropWhile rustIsWhitespace)

/-- Embedding of `WhiteSpaceNormalised::normalise` for `String`
(`src/props.rs` lines 175-191). -/
def normalise (s : String) (discard_wsp : Bool) : String :=
  if starts_with_wsp s && discard_wsp then trim_start s
  else if starts_with_wsp s then String.mk ('\\' :: s.data)
  else s

/-- Embedding of `PropertiesBuilder::concat_namespace` (`src/props.rs`
lines 123-129): join the namespace and the sub-key with a dot. -/
def concat_namespace (ns sub_key : String) : String :=
  ns ++ "." ++ sub_key

namespace str_constant

/-- Modelled from the spec: the `str_constant` module is declared in
`src/main.rs` but its file is not under `src/`; the spec fixes the
array-join separator as a comma ("join them with a fixed separator
(comma)"). -/
def COMMA : String := ","

end str_constant

/-- Embedding of `PropertiesBuilder::has_only_primitives` (`src/props.rs`
lines 131-133): no element of the slice is an array or an object. -/
def has_only_primitives (values : List Value) : Bool :=
  values.all fun v =>
    match v with
    | .arr _ => false
    | .obj _ => false
    | _ => true

/-- Embedding of `PropertiesBuilder::primitive_to_string` (`src/props.rs`
lines 135-141) with the `unreachable!` panic made explicit as `none`:
a string yields itself, a bool, number or null yields its
`Value::to_string` serialisation, an array or object hits the
unreachable arm. -/
def primitive_to_string? : Value → Option String
  | .str s => some s
  | .bool b => some (boolToString b)
  | .num n => some n
  | .null => some "null"
  | .arr _ => none
  | .obj _ => none

/-- Total wrapper of `primitive_to_string?` used inside the flattener;
the default is never consulted (see the safety theorem for C9). -/
def primitive_to_string (v : Value) : String :=
  (primitive_to_string? v).getD ""

/-- Rust `Vec<String>::join(sep)`. -/
def joinStrings (sep : String) : List String → String
  | [] => ""
  | [s] => s
  | s :: rest => s ++ sep ++ joinStrings sep rest

mutual

/-- Embedding of `PropertiesBuilder::parse_value` (`src/props.rs` lines
85-121): flatten one value reached at raw namespace `ns` into escaped
key/value pairs. -/
def parse_value (cfg : Config) (ns : String) : Value → List (PropKey × String)
  | .null => [(PropKey.new ns, "")]
  | .num n => [(PropKey.new ns, n)]
  | .str s => [(PropKey.new ns, normalise s cfg.discard_wsp)]
  | .bool b => [(PropKey.new ns, boolToString b)]
  | .obj fields => parse_obj cfg ns fields
  | .arr values =>
    match cfg.list_handling with
    | .singleProp =>
      if has_only_primitives values then
        [(PropKey.new ns,
          normalise (joinStrings str_constant.COMMA (values.map primitive_to_string))
            cfg.discard_wsp)]
      else []
    | .multiProp => parse_arr cfg ns 0 values

/-- The `flat_map` over an object's members in `parse_value`
(`src/props.rs` lines 92-97), written as explicit recursion. -/
def parse_obj (cfg : Config) (ns : String) : List (String × Value) → List (PropKey × String)
  | [] => []
  | (s, v) :: rest =>
    parse_value cfg (concat_namespace ns s) v ++ parse_obj cfg ns rest

/-- The `enumerate`-and-`flat_map` over an array's elements in the
`MultiProp` branch of `parse_value` (`src/props.rs` lines 113-118),
written as explicit recursion carrying the running index. -/
def parse_arr (cfg : Config) (ns : String) (i : Nat) : List Value → List (PropKey × String)
  | [] => []
  | v :: rest =>
    parse_value cfg (concat_namespace ns (Nat.repr i)) v ++ parse_arr cfg ns (i + 1) rest

end

/-- Ordered insertion into a strictly key-sorted association list: the
behaviour of `BTreeMap::insert` keyed by `PropKey`, whose derived `Ord`
is the lexicographic order of the wrapped key text.  An equal key is
overwritten in place. -/
def btree_insert (k : PropKey) (v : String) : List (PropKey × String) → List (PropKey × String)
  | [] => [(k, v)]
  | (k', v') :: rest =>
    if PropKey.lt k k' then (k, v) :: (k', v') :: rest
    else if k = k' then (k, v) :: rest
    else (k', v') :: btree_insert k v rest

/-- The `collect::<BTreeMap<_, _>>()` of `parse_internal`
(`src/props.rs` lines 79-81): insert the produced pairs one after the
other, so a later pair with an equal key overwrites an earlier one. -/
def btree_from_list (ps : List (PropKey × String)) : List (PropKey × String) :=
  ps.foldl (fun m kv => btree_insert kv.1 kv.2 m) []

/-- The `Properties` struct of `src/props.rs`: its `BTreeMap` is carried
as the key-sorted entry list in which the map iterates. -/
structure Properties where
  props : List (PropKey × String)

/-- Embedding of `Properties::empty`. -/
def Properties.empty : Properties := ⟨[]⟩

/-- The top-level `flat_map` of `PropertiesBuilder::parse_internal`
(`src/props.rs` line 80), before collection: each member of the root
object is flattened with its own name as the namespace. -/
def top_pairs (cfg : Config) : List (String × Value) → List (PropKey × String)
  | [] => []
  | (s, v) :: rest => parse_value cfg s v ++ top_pairs cfg rest

/-- Embedding of `PropertiesBuilder::parse_internal` (`src/props.rs`
lines 78-83). -/
def parse_internal (cfg : Config) (object_map : List (String × Value)) : Properties :=
  ⟨btree_from_list (top_pairs cfg object_map)⟩

/-- The `PropertyConstructionError` enum of `src/props.rs`. -/
inductive PropertyConstructionError where
  | topLevelPrimitiveError (v : Value)
  | topLevelArrayError (v : Value)

/-- Embedding of `PropertiesBuilder::build` (`src/props.rs` lines
69-76): the top-level shape dispatch. -/
def build (cfg : Config) : Value → Except PropertyConstructionError Properties
  | .obj object_map => .ok (parse_internal cfg object_map)
  | .null => .ok Properties.empty
  | .str s => .error (.topLevelPrimitiveError (.str s))
  | .bool b => .error (.topLevelPrimitiveError (.bool b))
  | .num n => .error (.topLevelPrimitiveError (.num n))
  | .arr vs => .error (.topLevelArrayError (.arr vs))

/-! Spec-side definitions, used to state the claims against the
embedding rather than merely restate it. -/

/-- Spec-side per-character escaping rule (§4.2 rule 2): a space, colon
or equals sign becomes a backslash followed by itself, anything else
passes through. -/
def escCharSpec (c : Char) : List Char :=
  if c = ' ' ∨ c = ':' ∨ c = '=' then ['\\', c] else [c]

/-- Spec-side scalar test (glossary): a value that is neither an array
nor an object. -/
def isScalar : Value → Bool
  | .arr _ => false
  | .obj _ => false
  | _ => true

/-- Are all members of an object-member list scalar-valued. -/
def allScalarFields : List (String × Value) → Bool
  | [] => true
  | (_, v) :: rest => isScalar v && allScalarFields rest

/-- Spec-side textual form of a scalar element inside a `SingleProp`
joined array (§4.1: "render each element's natural textual form"):
null renders as the four characters `null`, a bool as `true`/`false`, a
number as its decimal text, a string as itself. -/
def specScalarItemText : Value → String
  | .null => "null"
  | .bool b => boolToString b
  | .num n => n
  | .str s => s
  | .arr _ => ""
  | .obj _ => ""

/-- Spec-side textual form of a scalar leaf (§4.1 recursive case): null
yields the empty string, a bool `true`/`false`, a number its decimal
text, a string its normalised form. -/
def specLeafText (cfg : Config) : Value → String
  | .null => ""
  | .bool b => boolToString b
  | .num n => n
  | .str s => normalise s cfg.discard_wsp
  | .arr _ => ""
  | .obj _ => ""

/-- Dot-joining of a non-empty path of member names (glossary:
"the dot-joined path of object keys from the document root"). -/
def dotJoin : List String → String
  | [] => ""
  | [s] => s
  | s :: rest => s ++ "." ++ dotJoin rest

mutual

/-- Spec-side leaf enumeration of a tree: each root-to-leaf path of
segments paired with the leaf's rendered value.  A segment is an object
member name or — under `MultiProp` — the decimal index of an array
element; under `SingleProp` an all-scalar array is itself a leaf whose
value is the normalised comma-join of its elements, and any other array
contributes no leaves (it is dropped silently). -/
def specLeafPaths (cfg : Config) : Value → List (List String × String)
  | .obj fields => specLeafPathsFields cfg fields
  | .arr vs =>
    match cfg.list_handling with
    | .singleProp =>
      if has_only_primitives vs then
        [([],
          normalise (joinStrings str_constant.COMMA (vs.map specScalarItemText))
            cfg.discard_wsp)]
      else []
    | .multiProp => specLeafPathsElems cfg 0 vs
  | v => [([], specLeafText cfg v)]

/-- Companion of `specLeafPaths` over an object's member list: each
member name is prepended to the paths of its value's leaves. -/
def specLeafPathsFields (cfg : Config) : List (String × Value) → List (List String × String)
  | [] => []
  | (k, v) :: rest =>
    (specLeafPaths cfg v).map (fun pt => (k :: pt.1, pt.2)) ++
      specLeafPathsFields cfg rest

/-- Companion of `specLeafPaths` over an array's elements under
`MultiProp`: the running decimal index is prepended to the paths of each
element's leaves. -/
def specLeafPathsElems (cfg : Config) (i : Nat) : List Value → List (List String × String)
  | [] => []
  | v :: rest =>
    (specLeafPaths cfg v).map (fun pt => (Nat.repr i :: pt.1, pt.2)) ++
      specLeafPathsElems cfg (i + 1) rest

end

/-- First-match lookup in an association list of entries, keyed by the
escaped key text. -/
def listLookup (k : String) : List (PropKey × String) → Option String
  | [] => none
  | (k', v) :: rest => if k'.text = k then some v else listLookup k rest

/-- The value of the last pair carrying a given escaped key in a pair
sequence, if any — a pair later in the sequence takes precedence over an
earlier one: the "later pair wins" reading of spec §4.4. -/
def lastWins (ps : List (PropKey × String)) (k : String) : Option String :=
  match ps with
  | [] => none
  | p :: rest =>
    match lastWins rest k with
    | some v => some v
    | none => if p.1.text = k then some p.2 else none

/-- Decimal-index enumeration of an array's elements, as the member list
of the object the `MultiProp` policy pretends the array is (§4.1). -/
def enum_from (i : Nat) : List Value → List (String × Value)
  | [] => []
  | v :: rest => (Nat.repr i, v) :: enum_from (i + 1) rest

/-! Helper lemmas. -/

theorem escape_loop_eq_flatMap (l : List Char) : escape_loop l = l.flatMap escCharSpec := by
  induction l with
  | nil => rfl
  | cons c cs ih =>
    by_cases h : c = ' ' ∨ c = ':' ∨ c = '='
    · have hb : (c = ' ' || c = ':' || c = '=') = true := by
        rcases h with h | h | h <;> simp [h]
      simp [escape_loop, escCharSpec, hb, h, ih]
    · have hb : (c = ' ' || c = ':' || c = '=') = false := by
        push_neg at h
        simp [h.1, h.2.1, h.2.2]
      simp [escape_loop, escCharSpec, hb, h, ih]

theorem dropWhile_of_not_starts (s : String) (h : starts_with_wsp s = false) :
    s.data.dropWhile rustIsWhitespace = s.data := by
  cases hd : s.data with
  | nil => simp
  | cons c cs =>
    have hc : rustIsWhitespace c = false := by
      simpa [starts_with_wsp, hd] using h
    simp [List.dropWhile, hc]

end JsonProps

namespace JsonProps

/-- C2: for every configuration, building properties from a top-level
`Bool`, `Number` or `String` fails with `TopLevelPrimitiveError` carrying
that value, a top-level `Array` fails with `TopLevelArrayError` carrying
that value, a top-level `Null` succeeds with an empty store (zero
entries), and a top-level `Object` always succeeds, so it never produces
either error. -/
theorem build_top_level_shapes (cfg : Config) :
    (∀ b, build cfg (.bool b) = .error (.topLevelPrimitiveError (.bool b))) ∧
    (∀ n, build cfg (.num n) = .error (.topLevelPrimitiveError (.num n))) ∧
    (∀ s, build cfg (.str s) = .error (.topLevelPrimitiveError (.str s))) ∧
    (∀ vs, build cfg (.arr vs) = .error (.topLevelArrayError (.arr vs))) ∧
    (build cfg .null = .ok Properties.empty ∧ Properties.empty.props.length = 0) ∧
    (∀ fields, build cfg (.obj fields) = .ok (parse_internal cfg fields)) :=
  ⟨fun _ => rfl, fun _ => rfl, fun _ => rfl, fun _ => rfl, ⟨rfl, rfl⟩, fun _ => rfl⟩

/-- C5: the key escaper is total and emits, before each character equal
to a space, colon or equals sign, a backslash, passes every other
character through unchanged, and prepends one extra backslash exactly
when the first character is a number sign; in particular `"fo:o"`
escapes to `fo\:o`, `"#foo"` to `\#foo` and `"  #foo"` to `\ \ #foo`. -/
theorem propkey_new_characterisation (s : String) :
    (PropKey.new s).text.data =
      (if s.data.head? = some '#' then ['\\'] else []) ++ s.data.flatMap escCharSpec ∧
    (PropKey.new "fo:o").text = "fo\\:o" ∧
    (PropKey.new "#foo").text = "\\#foo" ∧
    (PropKey.new "  #foo").text = "\\ \\ #foo" :=
  ⟨by simp [PropKey.new, escape_loop_eq_flatMap], rfl, rfl, rfl⟩

/-- C6: the value normalizer returns its input unchanged when it does not
start with whitespace, strips all leading whitespace when it starts with
whitespace and the discard flag is set, prepends exactly one backslash
keeping the whitespace when the flag is unset, and in every case the part
of the input after its leading whitespace — trailing whitespace included —
survives verbatim as a suffix of the result. -/
theorem normalise_characterisation (s : String) (d : Bool) :
    (starts_with_wsp s = false → normalise s d = s) ∧
    (starts_with_wsp s = true → d = true →
      (normalise s d).data = s.data.dropWhile rustIsWhitespace) ∧
    (starts_with_wsp s = true → d = false →
      (normalise s d).data = '\\' :: s.data) ∧
    (∃ t, t ++ s.data.dropWhile rustIsWhitespace = (normalise s d).data) := by
  refine ⟨fun h => ?_, fun h hd => ?_, fun h hd => ?_, ?_⟩
  · simp [normalise, h]
  · simp [normalise, h, hd, trim_start]
  · simp [normalise, h, hd]
  · by_cases h : starts_with_wsp s
    · cases d
      · refine ⟨'\\' :: s.data.takeWhile rustIsWhitespace, ?_⟩
        simp [normalise, h, List.takeWhile_append_dropWhile]
      · exact ⟨[], by simp [normalise, h, trim_start]⟩
    · refine ⟨[], ?_⟩
      simp only [Bool.not_eq_true] at h
      simp [normalise, h, dropWhile_of_not_starts s h]

/-- Witness for C6 at the inputs `"bar"` and `" bar"`. -/
theorem normalise_characterisation_witness :
    normalise "bar" false = "bar" ∧
    (normalise " bar" true).data = (" bar" : String).data.dropWhile rustIsWhitespace ∧
    (normalise " bar" false).data = '\\' :: (" bar" : String).data :=
  ⟨(normalise_characterisation "bar" false).1 (by decide),
   (normalise_characterisation " bar" true).2.1 (by decide) rfl,
   (normalise_characterisation " bar" false).2.2.1 (by decide) rfl⟩

/-- C10: a JSON null is rendered asymmetrically — as a leaf it yields a
pair whose value is the empty string, while as an element of an
all-scalar array under the `SingleProp` policy it contributes the
four-character text `null` to the comma-joined value. -/
theorem null_leaf_vs_array_item :
    (∀ cfg ns, parse_value cfg ns .null = [(PropKey.new ns, "")]) ∧
    primitive_to_string .null = "null" ∧
    ("null" : String).data.length = 4 ∧
    parse_value ⟨.singleProp, false⟩ "k" (.arr [.null, .num "1"]) =
      [(PropKey.new "k", "null,1")] :=
  ⟨fun _ _ => rfl, rfl, rfl, rfl⟩

/-- Counterexample to C8 as stated: a raw namespace consisting of one tab
character — a whitespace character — escapes to itself, with no backslash
emitted anywhere in the key, so not every whitespace character is escaped
per-character. -/
theorem propkey_tab_not_escaped :
    (PropKey.new (String.mk ['\t'])).text.data = ['\t'] ∧
    '\\' ∉ (PropKey.new (String.mk ['\t'])).text.data := by
  refine ⟨rfl, ?_⟩
  intro h
  have he : (PropKey.new (String.mk ['\t'])).text.data = ['\t'] := rfl
  rw [he] at h
  simp at h

/-- C8 amended: among whitespace characters only the ASCII space is
escaped by the key escaper; any other whitespace character (tab, newline,
…) passes through without a backslash. -/
theorem escape_whitespace_amended (c : Char) (h : rustIsWhitespace c = true) :
    (PropKey.new (String.mk [c])).text.data =
      if c = ' ' then ['\\', ' '] else [c] := by
  have hhash : c ≠ '#' := by
    intro e
    subst e
    exact absurd h (by decide)
  have hcolon : c ≠ ':' := by
    intro e
    subst e
    exact absurd h (by decide)
  have heq : c ≠ '=' := by
    intro e
    subst e
    exact absurd h (by decide)
  by_cases hsp : c = ' '
  · subst hsp
    rfl
  · have hb : (c = ' ' || c = ':' || c = '=') = false := by
      simp [hsp, hcolon, heq]
    simp [PropKey.new, escape_loop, hb, hsp, hhash]
    exact ⟨hcolon, heq⟩

/-- Witness for the amended C8 at the tab character. -/
theorem escape_whitespace_amended_witness :
    (PropKey.new (String.mk ['\t'])).text.data =
      if '\t' = ' ' then ['\\', ' '] else ['\t'] :=
  escape_whitespace_amended '\t' (by decide)

theorem has_only_primitives_eq_all_scalar (values : List Value) :
    has_only_primitives values = values.all isScalar := rfl

theorem primitive_to_string_eq_spec (v : Value) :
    primitive_to_string v = specScalarItemText v := by
  cases v <;> rfl

theorem map_primitive_to_string_eq_spec (values : List Value)
    (h : has_only_primitives values = true) :
    values.map primitive_to_string = values.map specScalarItemText := by
  induction values with
  | nil => rfl
  | cons v vs ih =>
    rw [has_only_primitives_eq_all_scalar] at h
    simp only [List.all_cons, Bool.and_eq_true] at h
    rw [has_only_primitives_eq_all_scalar] at ih
    simp [primitive_to_string_eq_spec v, ih h.2]

/-- C3: under the `SingleProp` policy an all-scalar array at a namespace
emits exactly one pair whose value is the elements' natural textual
forms joined with a comma and run through the value normalizer, while an
array containing an array or object emits zero pairs for that namespace,
and the overall conversion of an object still succeeds. -/
theorem single_prop_array (cfg : Config) (ns : String) (values : List Value)
    (hcfg : cfg.list_handling = .singleProp) :
    (has_only_primitives values = true →
      parse_value cfg ns (.arr values) =
        [(PropKey.new ns,
          normalise (joinStrings str_constant.COMMA (values.map specScalarItemText))
            cfg.discard_wsp)]) ∧
    (has_only_primitives values = false →
      parse_value cfg ns (.arr values) = []) ∧
    (∀ fields, ∃ p, build cfg (.obj fields) = .ok p) := by
  refine ⟨fun h => ?_, fun h => ?_, fun fields => ⟨_, rfl⟩⟩
  · simp [parse_value, hcfg, h, map_primitive_to_string_eq_spec values h]
  · simp [parse_value, hcfg, h]

/-- Witness for C3: an all-scalar array emits the joined pair, an array
containing an object is dropped silently. -/
theorem single_prop_array_witness :
    parse_value ⟨.singleProp, false⟩ "x" (.arr [.num "1", .str "a", .bool true]) =
      [(PropKey.new "x",
        normalise
          (joinStrings str_constant.COMMA
            ([Value.num "1", Value.str "a", Value.bool true].map specScalarItemText))
          false)] ∧
    parse_value ⟨.singleProp, false⟩ "x" (.arr [.num "1", .obj [("y", .num "2")]]) = [] :=
  ⟨(single_prop_array ⟨.singleProp, false⟩ "x" [.num "1", .str "a", .bool true] rfl).1 rfl,
   (single_prop_array ⟨.singleProp, false⟩ "x" [.num "1", .obj [("y", .num "2")]] rfl).2.1 rfl⟩

theorem parse_arr_eq_parse_obj_enum (cfg : Config) (ns : String) (values : List Value) :
    ∀ i, parse_arr cfg ns i values = parse_obj cfg ns (enum_from i values) := by
  induction values with
  | nil => intro i; rfl
  | cons v vs ih => intro i; simp [parse_arr, parse_obj, enum_from, ih]

/-- C4: under the `MultiProp` policy an array at a namespace is flattened
exactly as the object whose keys are the decimal indices of its elements,
each recursion extending the namespace with a dot and the index; in
particular `{"x": [1,2]}` yields exactly the entries `x.0 = "1"` and
`x.1 = "2"`. -/
theorem multi_prop_array (cfg : Config) (ns : String) (values : List Value)
    (hcfg : cfg.list_handling = .multiProp) :
    parse_value cfg ns (.arr values) = parse_value cfg ns (.obj (enum_from 0 values)) ∧
    (parse_internal ⟨.multiProp, false⟩ [("x", .arr [.num "1", .num "2"])]).props =
      [(PropKey.new "x.0", "1"), (PropKey.new "x.1", "2")] := by
  refine ⟨?_, rfl⟩
  simp [parse_value, hcfg, parse_arr_eq_parse_obj_enum]

/-- Witness for C4 at `{"x": [1,2]}` under `MultiProp`. -/
theorem multi_prop_array_witness :
    parse_value ⟨.multiProp, false⟩ "x" (.arr [.num "1", .num "2"]) =
      parse_value ⟨.multiProp, false⟩ "x"
        (.obj (enum_from 0 [.num "1", .num "2"])) ∧
    (parse_internal ⟨.multiProp, false⟩ [("x", .arr [.num "1", .num "2"])]).props =
      [(PropKey.new "x.0", "1"), (PropKey.new "x.1", "2")] :=
  multi_prop_array ⟨.multiProp, false⟩ "x" [.num "1", .num "2"] rfl

/-- C9: once the top-level shape check passes the flattening is total: an
object or null root always builds successfully, and the `unreachable!`
arm of `primitive_to_string` (the `none` of `primitive_to_string?`) is
never executed, because every element of an array satisfying
`has_only_primitives` is a scalar. -/
theorem flatten_total_no_panic (values : List Value)
    (h : has_only_primitives values = true) :
    (∀ v ∈ values, (primitive_to_string? v).isSome = true) ∧
    (∀ cfg fields, ∃ p, build cfg (.obj fields) = .ok p) ∧
    (∀ cfg, build cfg .null = .ok Properties.empty) := by
  refine ⟨?_, fun cfg fields => ⟨_, rfl⟩, fun cfg => rfl⟩
  intro v hv
  rw [has_only_primitives_eq_all_scalar] at h
  have hs : isScalar v = true := List.all_eq_true.mp h v hv
  cases v <;> first
    | rfl
    | simp [isScalar] at hs

/-- Witness for C9 at a singleton all-scalar array. -/
theorem flatten_total_no_panic_witness :
    (primitive_to_string? .null).isSome = true :=
  (flatten_total_no_panic [.null] rfl).1 .null (by simp)

theorem charsLt_iff_lex : ∀ (a b : List Char), charsLt a b = true ↔ List.Lex (· < ·) a b := by
  intro a
  induction a with
  | nil =>
    intro b
    cases b with
    | nil =>
      exact ⟨fun h => by simp [charsLt] at h, fun h => absurd h (List.Lex.not_nil_right _ _)⟩
    | cons c cs =>
      exact ⟨fun _ => List.Lex.nil, fun _ => rfl⟩
  | cons a as ih =>
    intro b
    cases b with
    | nil =>
      exact ⟨fun h => by simp [charsLt] at h, fun h => absurd h (List.Lex.not_nil_right _ _)⟩
    | cons c cs =>
      by_cases h1 : a.toNat < c.toNat
      · constructor
        · intro _
          exact List.Lex.rel h1
        · intro _
          simp [charsLt, h1]
      · by_cases h2 : c.toNat < a.toNat
        · constructor
          · intro h
            simp [charsLt, h1, h2] at h
          · intro h
            cases h with
            | rel hr => exact absurd hr h1
            | cons ht => exact absurd h2 (by omega)
        · have heq : a = c := by
            apply Char.ext
            apply UInt32.ext
            have e : a.toNat = c.toNat := by omega
            exact e
          subst heq
          constructor
          · intro h
            have h' : charsLt as cs = true := by simpa [charsLt, h1] using h
            exact List.Lex.cons ((ih cs).mp h')
          · intro h
            have h' : List.Lex (· < ·) as cs := List.Lex.cons_iff.mp h
            simpa [charsLt, h1] using (ih cs).mpr h'

theorem propKey_lt_iff (a b : PropKey) : PropKey.lt a b = true ↔ a.text < b.text := by
  rw [String.lt_iff_toList_lt]
  exact charsLt_iff_lex a.text.data b.text.data

theorem propKey_eq_iff (a b : PropKey) : a = b ↔ a.text = b.text := by
  cases a
  cases b
  simp

theorem mem_btree_insert (k : PropKey) (v : String) :
    ∀ (m : List (PropKey × String)) (x : PropKey × String),
      x ∈ btree_insert k v m → x = (k, v) ∨ x ∈ m := by
  intro m
  induction m with
  | nil =>
    intro x hx
    simp [btree_insert] at hx
    exact Or.inl hx
  | cons p rest ih =>
    obtain ⟨k', v'⟩ := p
    intro x hx
    rw [btree_insert] at hx
    by_cases h1 : PropKey.lt k k' = true
    · rw [if_pos h1, List.mem_cons] at hx
      rcases hx with h | h
      · exact Or.inl h
      · exact Or.inr h
    · rw [if_neg h1] at hx
      by_cases h2 : k = k'
      · rw [if_pos h2, List.mem_cons] at hx
        rcases hx with h | h
        · exact Or.inl h
        · exact Or.inr (List.mem_cons_of_mem _ h)
      · rw [if_neg h2, List.mem_cons] at hx
        rcases hx with h | h
        · exact Or.inr (by simp [h])
        · rcases ih x h with h' | h'
          · exact Or.inl h'
          · exact Or.inr (by simp [h'])

theorem btree_insert_pairwise (k : PropKey) (v : String) :
    ∀ m : List (PropKey × String),
      m.Pairwise (fun p q => p.1.text < q.1.text) →
      (btree_insert k v m).Pairwise (fun p q => p.1.text < q.1.text) := by
  intro m
  induction m with
  | nil =>
    intro _
    simp [btree_insert]
  | cons p rest ih =>
    obtain ⟨k', v'⟩ := p
    intro hp
    rw [List.pairwise_cons] at hp
    obtain ⟨hall, hrest⟩ := hp
    rw [btree_insert]
    by_cases h1 : PropKey.lt k k' = true
    · have hk : k.text < k'.text := (propKey_lt_iff k k').mp h1
      rw [if_pos h1, List.pairwise_cons]
      refine ⟨?_, ?_⟩
      · intro q hq
        rcases List.mem_cons.mp hq with h | h
        · rw [h]
          exact hk
        · exact lt_trans hk (hall q h)
      · rw [List.pairwise_cons]
        exact ⟨hall, hrest⟩
    · rw [if_neg h1]
      by_cases h2 : k = k'
      · rw [if_pos h2, List.pairwise_cons]
        subst h2
        exact ⟨hall, hrest⟩
      · have hk : k'.text < k.text := by
          have hne : k.text ≠ k'.text := fun e => h2 ((propKey_eq_iff k k').mpr e)
          have hnl : ¬ k.text < k'.text := fun hl => h1 ((propKey_lt_iff k k').mpr hl)
          exact lt_of_le_of_ne (not_lt.mp hnl) (Ne.symm hne)
        rw [if_neg h2, List.pairwise_cons]
        refine ⟨?_, ih hrest⟩
        intro q hq
        rcases mem_btree_insert k v rest q hq with h | h
        · rw [h]
          exact hk
        · exact hall q h

theorem listLookup_btree_insert (k : PropKey) (v : String) :
    ∀ (m : List (PropKey × String)) (q : String),
      listLookup q (btree_insert k v m) =
        if k.text = q then some v else listLookup q m := by
  intro m
  induction m with
  | nil =>
    intro q
    simp [btree_insert, listLookup]
  | cons p rest ih =>
    obtain ⟨k', v'⟩ := p
    intro q
    rw [btree_insert]
    by_cases h1 : PropKey.lt k k' = true
    · rw [if_pos h1]
      simp [listLookup]
    · rw [if_neg h1]
      by_cases h2 : k = k'
      · rw [if_pos h2]
        subst h2
        by_cases hq : k.text = q <;> simp [listLookup, hq]
      · rw [if_neg h2]
        by_cases hq' : k'.text = q
        · have hne : ¬ k.text = q := by
            intro e
            exact h2 ((propKey_eq_iff k k').mpr (by rw [e, hq']))
          simp [listLookup, hq', hne]
        · simp [listLookup, hq', ih q]

theorem listLookup_foldl_insert :
    ∀ (ps m : List (PropKey × String)) (q : String),
      listLookup q (ps.foldl (fun acc kv => btree_insert kv.1 kv.2 acc) m) =
        (match lastWins ps q with
          | some v => some v
          | none => listLookup q m) := by
  intro ps
  induction ps with
  | nil =>
    intro m q
    rfl
  | cons p rest ih =>
    intro m q
    simp only [List.foldl_cons]
    rw [ih]
    cases hlw : lastWins rest q with
    | some v => simp [lastWins, hlw]
    | none =>
      rw [listLookup_btree_insert]
      simp only [lastWins, hlw]
      by_cases hq : p.1.text = q <;> simp [hq]

theorem pairwise_foldl_insert :
    ∀ ps m : List (PropKey × String),
      m.Pairwise (fun p q => p.1.text < q.1.text) →
      (ps.foldl (fun acc kv => btree_insert kv.1 kv.2 acc) m).Pairwise
        (fun p q => p.1.text < q.1.text) := by
  intro ps
  induction ps with
  | nil =>
    intro m hm
    exact hm
  | cons p rest ih =>
    intro m hm
    exact ih _ (btree_insert_pairwise p.1 p.2 m hm)

theorem value_ind (motive : Value → Prop)
    (hnull : motive .null) (hbool : ∀ b, motive (.bool b))
    (hnum : ∀ n, motive (.num n)) (hstr : ∀ s, motive (.str s))
    (harr : ∀ vs, (∀ v ∈ vs, motive v) → motive (.arr vs))
    (hobj : ∀ fs, (∀ p ∈ fs, motive p.2) → motive (.obj fs)) :
    ∀ v, motive v := by
  have key : ∀ n (v : Value), sizeOf v ≤ n → motive v := by
    intro n
    induction n with
    | zero =>
      intro v hv
      exfalso
      cases v <;> simp at hv
    | succ n ih =>
      intro v hv
      cases v with
      | null => exact hnull
      | bool b => exact hbool b
      | num s => exact hnum s
      | str s => exact hstr s
      | arr vs =>
        refine harr vs ?_
        intro x hx
        refine ih x ?_
        have h1 := List.sizeOf_lt_of_mem hx
        have h2 : sizeOf (Value.arr vs) = 1 + sizeOf vs := by simp
        omega
      | obj fs =>
        refine hobj fs ?_
        intro p hp
        refine ih p.2 ?_
        have h1 := List.sizeOf_lt_of_mem hp
        have h2 : sizeOf (Value.obj fs) = 1 + sizeOf fs := by simp
        have h3 : sizeOf p.2 < sizeOf p := by
          obtain ⟨a, b⟩ := p
          simp
        omega
  intro v
  exact key (sizeOf v) v (le_refl _)

theorem dotJoin_cons_cons (a b : String) (l : List String) :
    dotJoin ((a ++ "." ++ b) :: l) = a ++ "." ++ dotJoin (b :: l) := by
  cases l with
  | nil => rfl
  | cons c cs => simp [dotJoin, String.append_assoc]

theorem parse_value_leaf_paths (cfg : Config) :
    ∀ v : Value, ∀ ns,
      parse_value cfg ns v =
        (specLeafPaths cfg v).map (fun pt => (PropKey.new (dotJoin (ns :: pt.1)), pt.2)) := by
  intro v
  induction v using value_ind with
  | hnull => intro ns; simp [parse_value, specLeafPaths, specLeafText, dotJoin]
  | hbool b => intro ns; simp [parse_value, specLeafPaths, specLeafText, dotJoin]
  | hnum n => intro ns; simp [parse_value, specLeafPaths, specLeafText, dotJoin]
  | hstr s => intro ns; simp [parse_value, specLeafPaths, specLeafText, dotJoin]
  | harr vs ihv =>
    intro ns
    cases hlh : cfg.list_handling with
    | singleProp =>
      by_cases hp : has_only_primitives vs = true
      · rw [show parse_value cfg ns (.arr vs) =
            [(PropKey.new ns,
              normalise (joinStrings str_constant.COMMA (vs.map primitive_to_string))
                cfg.discard_wsp)] from by simp [parse_value, hlh, hp]]
        rw [map_primitive_to_string_eq_spec vs hp]
        simp [specLeafPaths, hlh, hp, dotJoin]
      · rw [Bool.not_eq_true] at hp
        simp [parse_value, specLeafPaths, hlh, hp]
    | multiProp =>
      have inner : ∀ l : List Value,
          (∀ w ∈ l, ∀ ns', parse_value cfg ns' w =
            (specLeafPaths cfg w).map
              (fun pt => (PropKey.new (dotJoin (ns' :: pt.1)), pt.2))) →
          ∀ i, parse_arr cfg ns i l =
            (specLeafPathsElems cfg i l).map
              (fun pt => (PropKey.new (dotJoin (ns :: pt.1)), pt.2)) := by
        intro l
        induction l with
        | nil => intro _ i; simp [parse_arr, specLeafPathsElems]
        | cons w rest ihr =>
          intro hm i
          rw [parse_arr, specLeafPathsElems]
          rw [hm w (by simp) (concat_namespace ns (Nat.repr i))]
          rw [ihr (fun q hq ns' => hm q (by simp [hq]) ns') (i + 1)]
          rw [List.map_append, List.map_map]
          congr 1
          apply List.map_congr_left
          intro pt _
          simp only [Function.comp_apply]
          rw [show concat_namespace ns (Nat.repr i) = ns ++ "." ++ Nat.repr i from rfl]
          rw [dotJoin_cons_cons]
          rfl
      rw [show parse_value cfg ns (.arr vs) = parse_arr cfg ns 0 vs from by
        simp [parse_value, hlh]]
      rw [show specLeafPaths cfg (.arr vs) = specLeafPathsElems cfg 0 vs from by
        simp [specLeafPaths, hlh]]
      exact inner vs ihv 0
  | hobj fs ih =>
    intro ns
    have inner : ∀ l : List (String × Value),
        (∀ p ∈ l, ∀ ns', parse_value cfg ns' p.2 =
          (specLeafPaths cfg p.2).map
            (fun pt => (PropKey.new (dotJoin (ns' :: pt.1)), pt.2))) →
        parse_obj cfg ns l =
          (specLeafPathsFields cfg l).map
            (fun pt => (PropKey.new (dotJoin (ns :: pt.1)), pt.2)) := by
      intro l
      induction l with
      | nil => intro _; simp [parse_obj, specLeafPathsFields]
      | cons p rest ihr =>
        intro hm
        obtain ⟨k, w⟩ := p
        rw [parse_obj, specLeafPathsFields]
        rw [hm (k, w) (by simp) (concat_namespace ns k)]
        rw [ihr (fun q hq ns' => hm q (by simp [hq]) ns')]
        rw [List.map_append, List.map_map]
        congr 1
        apply List.map_congr_left
        intro pt _
        simp only [Function.comp_apply]
        rw [show concat_namespace ns k = ns ++ "." ++ k from rfl]
        rw [dotJoin_cons_cons]
        rfl
    rw [show parse_value cfg ns (.obj fs) = parse_obj cfg ns fs from by simp [parse_value]]
    rw [show specLeafPaths cfg (.obj fs) = specLeafPathsFields cfg fs from by
      simp [specLeafPaths]]
    exact inner fs ih

theorem top_pairs_leaf_paths (cfg : Config) (fields : List (String × Value)) :
    top_pairs cfg fields =
      (specLeafPathsFields cfg fields).map
        (fun pt => (PropKey.new (dotJoin pt.1), pt.2)) := by
  induction fields with
  | nil => rfl
  | cons p rest ih =>
    obtain ⟨k, w⟩ := p
    rw [top_pairs, specLeafPathsFields]
    rw [parse_value_leaf_paths cfg w k]
    rw [ih, List.map_append, List.map_map]
    rfl

theorem top_pairs_all_scalar (cfg : Config) :
    ∀ fields, allScalarFields fields = true →
      top_pairs cfg fields =
        fields.map (fun p => (PropKey.new p.1, specLeafText cfg p.2)) := by
  intro fields
  induction fields with
  | nil => intro _; rfl
  | cons p rest ih =>
    intro hs
    obtain ⟨k, w⟩ := p
    have h1 : isScalar w = true := by
      simp [allScalarFields] at hs
      exact hs.1
    have h2 : allScalarFields rest = true := by
      simp [allScalarFields] at hs
      exact hs.2
    have hw : parse_value cfg k w = [(PropKey.new k, specLeafText cfg w)] := by
      cases w <;> first
        | rfl
        | simp [isScalar] at h1
    rw [top_pairs, ih h2, hw, List.map_cons]
    rfl

/-- Counterexample to C1 as stated: in the input `{"x": [1, 2]}` the
only object in the tree is the root and its only member name is `x`, so
the dot-joined path of object member names from the root to either leaf
is `x`; yet under `MultiProp` the flattener emits entries keyed `x.0`
and `x.1` — the decimal segments come from array indices, which are not
object member names — and neither key equals the escaped path `x`. -/
theorem flatten_keys_counterexample :
    top_pairs ⟨.multiProp, false⟩ [("x", .arr [.num "1", .num "2"])] =
      [(PropKey.new "x.0", "1"), (PropKey.new "x.1", "2")] ∧
    PropKey.new "x.0" ≠ PropKey.new (dotJoin ["x"]) ∧
    PropKey.new "x.1" ≠ PropKey.new (dotJoin ["x"]) := by
  refine ⟨rfl, ?_, ?_⟩ <;> decide

/-- C1 amended: for every root object and configuration, the key of each
emitted entry equals the escaped dot-join of the path of segments from
the root to the corresponding leaf, where a segment is an object member
name or, under `MultiProp`, the decimal index of an array element (an
all-scalar array under `SingleProp` being itself a leaf valued by its
normalised comma-join, and any other array under `SingleProp`
contributing no entries); in particular an object containing only
scalar-valued members flattens to exactly one pair per member, keyed by
the escaped member name and valued by its textual form. -/
theorem flatten_keys_amended (cfg : Config) (fields : List (String × Value)) :
    top_pairs cfg fields =
      (specLeafPathsFields cfg fields).map
        (fun pt => (PropKey.new (dotJoin pt.1), pt.2)) ∧
    (allScalarFields fields = true →
      top_pairs cfg fields =
        fields.map (fun p => (PropKey.new p.1, specLeafText cfg p.2))) :=
  ⟨top_pairs_leaf_paths cfg fields, top_pairs_all_scalar cfg fields⟩

/-- Witness for the amended C1 at a two-member scalar object. -/
theorem flatten_keys_amended_witness :
    top_pairs ⟨.multiProp, false⟩ [("a", Value.str "v"), ("b", Value.num "1")] =
      (specLeafPathsFields ⟨.multiProp, false⟩
          [("a", Value.str "v"), ("b", Value.num "1")]).map
        (fun pt => (PropKey.new (dotJoin pt.1), pt.2)) ∧
    top_pairs ⟨.multiProp, false⟩ [("a", Value.str "v"), ("b", Value.num "1")] =
      [("a", Value.str "v"), ("b", Value.num "1")].map
        (fun p => (PropKey.new p.1, specLeafText ⟨.multiProp, false⟩ p.2)) :=
  ⟨(flatten_keys_amended ⟨.multiProp, false⟩
      [("a", Value.str "v"), ("b", Value.num "1")]).1,
   (flatten_keys_amended ⟨.multiProp, false⟩
      [("a", Value.str "v"), ("b", Value.num "1")]).2 rfl⟩

/-- C7: the store assembled from the flattened pair sequence maps every
escaped key to the value of the last pair carrying it (a later-processed
pair overwrites an earlier one), and its entry list is strictly ascending
in the lexicographic order of the escaped key text — hence duplicate-free
— regardless of the order in which the pairs were produced. -/
theorem store_assembly (cfg : Config) (fields : List (String × Value)) :
    (parse_internal cfg fields).props.Pairwise (fun p q => p.1.text < q.1.text) ∧
    (∀ k, listLookup k (parse_internal cfg fields).props =
      lastWins (top_pairs cfg fields) k) := by
  constructor
  · exact pairwise_foldl_insert (top_pairs cfg fields) [] (by simp)
  · intro k
    have h := listLookup_foldl_insert (top_pairs cfg fields) [] k
    have he : (parse_internal cfg fields).props =
        (top_pairs cfg fields).foldl (fun acc kv => btree_insert kv.1 kv.2 acc) [] := rfl
    rw [he, h]
    cases lastWins (top_pairs cfg fields) k <;> rfl

end JsonProps
